import Mathlib

/-!
Verification of the context-selection heuristic and text normalizer.

A shallow embedding of the two algorithmic functions of `src/app.py`
(`clean_text` and `find_relevant_context`), with strings modelled as
`List Char`.  Python's character classes (`\s`, `[a-z]`, `[A-Z]`,
`[A-Za-z]`, `\d`, `str.lower`) are modelled by their ASCII restrictions;
every theorem below depends only on closure/disjointness facts that the
full Unicode classes share with these restrictions, and every concrete
test input is ASCII.
-/

set_option maxRecDepth 100000

/-- Python whitespace (`\s`, `str.split()`, `str.strip()`) restricted to
ASCII: space, tab, newline, carriage return, vertical tab, form feed. -/
def isPySpace (c : Char) : Bool :=
  c.toNat == 32 || c.toNat == 9 || c.toNat == 10 ||
  c.toNat == 13 || c.toNat == 11 || c.toNat == 12

/-- The regex class `[a-z]`. -/
def isLowerC (c : Char) : Bool := 97 ≤ c.toNat && c.toNat ≤ 122

/-- The regex class `[A-Z]`. -/
def isUpperC (c : Char) : Bool := 65 ≤ c.toNat && c.toNat ≤ 90

/-- The regex class `\d` (ASCII digits). -/
def isDigitC (c : Char) : Bool := 48 ≤ c.toNat && c.toNat ≤ 57

/-- The regex class `[A-Za-z]`. -/
def isAlphaC (c : Char) : Bool := isUpperC c || isLowerC c

/-- `str.lower` on one character (ASCII range). -/
def toLowerC (c : Char) : Char :=
  if isUpperC c then Char.ofNat (c.toNat + 32) else c

/-- `str.lower` on a whole string. -/
def toLowerL (l : List Char) : List Char := l.map toLowerC

/-- `str.strip()`: drop leading and trailing whitespace. -/
def pyStrip (l : List Char) : List Char :=
  ((l.dropWhile isPySpace).reverse.dropWhile isPySpace).reverse

/-- Worker for `str.split()` (no argument): `acc` holds the characters of
the word currently being scanned, in reverse.  A whitespace character ends
the current word (if any); words are emitted in order; no empty words are
produced. -/
def pySplitAux : List Char → List Char → List (List Char)
  | acc, [] => if acc = [] then [] else [acc.reverse]
  | acc, c :: rest =>
      if isPySpace c then
        if acc = [] then pySplitAux [] rest
        else acc.reverse :: pySplitAux [] rest
      else pySplitAux (c :: acc) rest

/-- `str.split()`: split on runs of whitespace, discarding empty pieces. -/
def pySplit (l : List Char) : List (List Char) := pySplitAux [] l

/-- `' '.join(pieces)`: concatenate with a single space between pieces. -/
def pyJoin : List (List Char) → List Char
  | [] => []
  | [p] => p
  | p :: q :: ps => p ++ ' ' :: pyJoin (q :: ps)

/-- `re.sub(P+, ' ', text)` for a single-character class `P`: each maximal
run of `P`-characters is replaced by one space.  The flag records whether
the previous character was part of a run already replaced. -/
def collapseAux (P : Char → Bool) : Bool → List Char → List Char
  | _, [] => []
  | inRun, c :: rest =>
      if P c then
        if inRun then collapseAux P true rest
        else ' ' :: collapseAux P true rest
      else c :: collapseAux P false rest

/-- `re.sub(r'(X)(Y)', r'\1 \2', text)` for single-character classes
`X`, `Y` given as a two-place test `P`: scanning left to right, a space is
inserted between an adjacent pair satisfying `P`, and the scan resumes
after the pair (as `re.sub` resumes after each match).  The greedy `+` in
the patterns `(\d+)([A-Za-z])` / `([A-Za-z])(\d+)` is immaterial: the
replacement keeps the digit run contiguous, so matching the whole run and
matching its boundary digit insert the same single space. -/
def insertBetween (P : Char → Char → Bool) : List Char → List Char
  | [] => []
  | [a] => [a]
  | a :: b :: rest =>
      if P a b then a :: ' ' :: b :: insertBetween P rest
      else a :: insertBetween P (b :: rest)

/-- The newline character, pattern `\n+`. -/
def isNl (c : Char) : Bool := c.toNat == 10

/-- The adjacency matched by `([a-z])([A-Z])`. -/
def lowerUpper (a b : Char) : Bool := isLowerC a && isUpperC b

/-- The adjacency matched by `(\d+)([A-Za-z])` (the inserted space always
lands between the last digit of the run and the letter). -/
def digitLetter (a b : Char) : Bool := isDigitC a && isAlphaC b

/-- The adjacency matched by `([A-Za-z])(\d+)`. -/
def letterDigit (a b : Char) : Bool := isAlphaC a && isDigitC b

/-- `clean_text` from `src/app.py` lines 29-46: collapse newline runs,
collapse whitespace runs, insert word boundaries at lower→upper,
digit→letter and letter→digit transitions, re-collapse whitespace via
`' '.join(text.split())`, and strip. -/
def clean_text (text : List Char) : List Char :=
  if text = [] then []
  else
    let t1 := collapseAux isNl false text
    let t2 := collapseAux isPySpace false t1
    let t3 := insertBetween lowerUpper t2
    let t4 := insertBetween digitLetter t3
    let t5 := insertBetween letterDigit t4
    pyStrip (pyJoin (pySplit t5))

/-- Sentence-terminal punctuation: the regex class `[.!?]`. -/
def isSentPunct (c : Char) : Bool :=
  c.toNat == 46 || c.toNat == 33 || c.toNat == 63

/-- Worker for `re.split(r'[.!?]+', text)`: `inSep` records whether the
previous character belonged to a separator run (in which case the piece
before the run has already been emitted and the accumulator is empty). -/
def splitRunsAux (sep : Char → Bool) : Bool → List Char → List Char → List (List Char)
  | _, acc, [] => [acc.reverse]
  | inSep, acc, c :: rest =>
      if sep c then
        if inSep then splitRunsAux sep true [] rest
        else acc.reverse :: splitRunsAux sep true [] rest
      else splitRunsAux sep false (c :: acc) rest

/-- `re.split(r'[.!?]+', text)`: pieces between maximal runs of `.`, `!`,
`?`; empty pieces at the ends are kept, as `re.split` keeps them. -/
def splitSentences (l : List Char) : List (List Char) :=
  splitRunsAux isSentPunct false [] l

/-- Worker for `str.count(sub)` with non-empty `sub`: non-overlapping
occurrences, scanning left to right.  The fuel starts at the length of the
scanned string; each step consumes at least one character, so the fuel
never runs out before the string does. -/
def countOccsGo (pat : List Char) : Nat → List Char → Nat
  | 0, _ => 0
  | _ + 1, [] => 0
  | fuel + 1, c :: rest =>
      if pat.isPrefixOf (c :: rest) then
        1 + countOccsGo pat fuel ((c :: rest).drop pat.length)
      else countOccsGo pat fuel rest

/-- Python `s.count(pat)`: non-overlapping occurrences of `pat` in `s`
(`len(s) + 1` when `pat` is empty, as in Python). -/
def countOccs (s pat : List Char) : Nat :=
  if pat = [] then s.length + 1 else countOccsGo pat s.length s

/-- The score of one sentence, `src/app.py` lines 101-107: for each
question word longer than two characters, add the number of occurrences of
the word in the lowercased (unstripped) sentence. -/
def sentenceScore (words : List (List Char)) (sentence : List Char) : Nat :=
  words.foldl
    (fun score w =>
      if 2 < w.length then score + countOccs (toLowerL sentence) w else score)
    0

/-- `src/app.py` lines 96-109: keep the sentences whose stripped form has
at least 10 characters, pairing each with its score; the stored sentence
is the stripped one. -/
def scoreSentences (words : List (List Char)) (sentences : List (List Char)) :
    List (Nat × List Char) :=
  sentences.filterMap
    (fun s =>
      if (pyStrip s).length < 10 then none
      else some (sentenceScore words s, pyStrip s))

/-- Insert one scored sentence into a list sorted by descending score,
after all entries of greater or equal score. -/
def insertDesc (x : Nat × List Char) : List (Nat × List Char) → List (Nat × List Char)
  | [] => [x]
  | y :: ys => if y.1 < x.1 then x :: y :: ys else y :: insertDesc x ys

/-- `scored_sentences.sort(key=lambda x: x[0], reverse=True)`
(`src/app.py` line 112).  Python's sort is stable and `reverse=True`
does not disturb the relative order of equal keys; any stable descending
sort computes the same list, and this insertion sort is one. -/
def sortDesc (l : List (Nat × List Char)) : List (Nat × List Char) :=
  l.foldl (fun acc x => insertDesc x acc) []

/-- The greedy assembly loop, `src/app.py` lines 115-120: stop outright at
the first sentence that would push the accumulated excerpt past the
budget; otherwise append the sentence followed by `". "` when its score is
positive, and skip it when its score is zero. -/
def buildContext (budget : Nat) : List Char → List (Nat × List Char) → List Char
  | acc, [] => acc
  | acc, (score, s) :: rest =>
      if budget < acc.length + s.length then acc
      else if 0 < score then
        buildContext budget (acc ++ s ++ '.' :: ' ' :: []) rest
      else buildContext budget acc rest

/-- `find_relevant_context` from `src/app.py` lines 83-126.  The guard
`not full_text or len(full_text) <= max_length` is `length ≤ max_length`
here: an empty text has length `0 ≤ max_length` and is returned unchanged
either way. -/
def find_relevant_context (question full_text : List Char) (max_length : Nat) :
    List Char :=
  if full_text.length ≤ max_length then full_text
  else
    let question_words := pySplit (toLowerL question)
    let sentences := splitSentences full_text
    let scored_sentences := scoreSentences question_words sentences
    let sorted_sentences := sortDesc scored_sentences
    let context := buildContext max_length [] sorted_sentences
    let context2 :=
      if pyStrip context = [] then full_text.take max_length else context
    pyStrip context2

/-- The context handed to the QA model: `get_answer` at `src/app.py`
line 135 calls `find_relevant_context(question, context, max_length=1500)`. -/
def answer_context (question document : List Char) : List Char :=
  find_relevant_context question document 1500

/-- The context shown to the user: `main` at `src/app.py` line 251 calls
`find_relevant_context(question, st.session_state.document_text)` with the
default `max_length=2000`. -/
def displayed_context (question document : List Char) : List Char :=
  find_relevant_context question document 2000

/-- Modelled from the spec (§4.2 step 4): the score of a sentence is the
sum, over the question tokens longer than two characters, of the number of
case-insensitive occurrences of the token in the sentence. -/
def specSentenceScore (words : List (List Char)) (sentence : List Char) : Nat :=
  ((words.filter (fun w => 2 < w.length)).map
    (fun w => countOccs (toLowerL sentence) w)).sum

/-! ## Concrete inputs used by counterexamples and witnesses -/

/-- The document of the spec scenario for claims C3. -/
def docOffice : List Char :=
  ("The office is open 9 AM to 5 PM. Employees get 10 paid holidays. " ++
   "Overtime pay is 1.5x regular rate.").toList

/-- The question of the spec scenario for claim C3. -/
def qHolidays : List Char := "What are the paid holidays?".toList

/-- A document whose single scored sentence has exactly 12 characters:
with budget 12 the sentence is appended and the stripped excerpt keeps a
trailing period, reaching 13 characters. -/
def docOverflow : List Char := "aaaa bbbb cc. xyzw".toList

/-- A document whose 10th character is a space, so the fallback prefix of
10 characters is changed by the final `strip()`. -/
def docFallback : List Char := "abcdefghi klmnopqrst".toList

/-- A document of 1604 characters whose one relevant sentence fits budget
2000 trivially (whole document returned) but is excerpted at budget 1500. -/
def docLong : List Char :=
  "paid holidays sentence. ".toList ++ List.replicate 1580 'z'

/-! ## General lemmas about the embedded operations -/

/-- The score-accumulating fold equals the sum of the per-token counts
over the tokens longer than two characters. -/
theorem foldl_score_eq (c : List Char → Nat) (ws : List (List Char)) (n : Nat) :
    ws.foldl (fun sc w => if 2 < w.length then sc + c w else sc) n
      = n + ((ws.filter (fun w => 2 < w.length)).map c).sum := by
  induction ws generalizing n with
  | nil => simp
  | cons w ws ih =>
    simp only [List.foldl_cons, List.filter_cons]
    by_cases h : 2 < w.length
    · simp [h, ih, Nat.add_assoc]
    · simp [h, ih]

theorem sentenceScore_eq_spec (words : List (List Char)) (s : List Char) :
    sentenceScore words s = specSentenceScore words s := by
  unfold sentenceScore specSentenceScore
  simpa using foldl_score_eq (fun w => countOccs (toLowerL s) w) words 0

/-! ## Claim theorems (first batch) -/

/-- C2: a document no longer than the budget is returned unchanged, for
any question. -/
theorem find_relevant_context_short_id (q d : List Char) (budget : Nat)
    (h : d.length ≤ budget) : find_relevant_context q d budget = d := by
  unfold find_relevant_context
  rw [if_pos h]

theorem find_relevant_context_short_id_witness :
    ("hello".toList.length ≤ 10) ∧
      find_relevant_context ("abc".toList) ("hello".toList) 10 = "hello".toList :=
  ⟨by decide, find_relevant_context_short_id ("abc".toList) ("hello".toList) 10 (by decide)⟩

/-- C3 counterexample: on the spec scenario (budget 200) the selector does
not return the single sentence `"Employees get 10 paid holidays."`. -/
theorem c3_scenario_not_single_sentence :
    ¬ (find_relevant_context qHolidays docOffice 200 =
        "Employees get 10 paid holidays.".toList) := by decide

/-- C3 (amended): the scenario document has 99 characters, which is at
most the budget 200, so the selector returns the document unchanged. -/
theorem c3_scenario_returns_document :
    docOffice.length = 99 ∧
      find_relevant_context qHolidays docOffice 200 = docOffice := by decide

/-- C5: the score paired with every kept sentence of the document equals
the sum, over the lowercase whitespace-delimited question tokens longer
than two characters, of the number of case-insensitive non-overlapping
occurrences of the token in the sentence. -/
theorem sentence_score_is_sum_of_counts (q d s : List Char)
    (h : s ∈ splitSentences d) :
    sentenceScore (pySplit (toLowerL q)) s
      = (((pySplit (toLowerL q)).filter (fun w => 2 < w.length)).map
          (fun w => countOccs (toLowerL s) w)).sum := by
  simpa [specSentenceScore] using sentenceScore_eq_spec (pySplit (toLowerL q)) s

theorem sentence_score_is_sum_of_counts_witness :
    ("abcdefghijk".toList ∈ splitSentences ("abcdefghijk".toList)) ∧
      sentenceScore (pySplit (toLowerL ("aa bbb".toList))) ("abcdefghijk".toList)
        = (((pySplit (toLowerL ("aa bbb".toList))).filter (fun w => 2 < w.length)).map
            (fun w => countOccs (toLowerL ("abcdefghijk".toList)) w)).sum :=
  ⟨by decide,
   sentence_score_is_sum_of_counts ("aa bbb".toList) ("abcdefghijk".toList)
     ("abcdefghijk".toList) (by decide)⟩

/-- C6: the first sentence whose addition would push the excerpt past the
budget stops the greedy loop outright: whatever follows it, the loop
returns the excerpt accumulated so far. -/
theorem buildContext_halts_on_first_overflow (budget : Nat) (acc : List Char)
    (sc : Nat) (s : List Char) (rest : List (Nat × List Char))
    (h : budget < acc.length + s.length) :
    buildContext budget acc ((sc, s) :: rest) = acc := by
  unfold buildContext
  rw [if_pos h]

theorem buildContext_halts_on_first_overflow_witness :
    (5 < "abc".toList.length + "defgh".toList.length) ∧
      buildContext 5 ("abc".toList) [(3, "defgh".toList), (2, "x".toList)] = "abc".toList :=
  ⟨by decide,
   buildContext_halts_on_first_overflow 5 ("abc".toList) 3 ("defgh".toList)
     [(2, "x".toList)] (by decide)⟩

/-- C8: the normalizer inserts spaces at the lower-to-upper transition and
at both digit/letter boundaries of `"wordA10wordB"`. -/
theorem clean_text_word_boundaries :
    clean_text ("wordA10wordB".toList) = "word A 10 word B".toList := by decide

/-- C10: the context computed for the QA model (budget 1500, inside
`get_answer`) differs from the recomputed context shown to the user
(default budget 2000) on a concrete question/document pair: the document
has 1604 characters, so the display call returns it whole while the
answer call excerpts it. -/
theorem answer_context_ne_displayed_context :
    answer_context ("paid".toList) docLong ≠ displayed_context ("paid".toList) docLong := by
  decide

/-! ## Sorting lemmas for C9 -/

theorem head?_insertDesc (x : Nat × List Char) (l : List (Nat × List Char)) :
    (insertDesc x l).head? = some x ∨ (insertDesc x l).head? = l.head? := by
  cases l with
  | nil => left; rfl
  | cons y ys =>
    unfold insertDesc
    split
    · left; rfl
    · right; rfl

theorem chain'_insertDesc (x : Nat × List Char) (l : List (Nat × List Char))
    (h : List.Chain' (fun a b => b.1 ≤ a.1) l) :
    List.Chain' (fun a b => b.1 ≤ a.1) (insertDesc x l) := by
  induction l with
  | nil => exact List.chain'_singleton x
  | cons y ys ih =>
    unfold insertDesc
    split
    · exact List.chain'_cons.mpr ⟨Nat.le_of_lt (by assumption), h⟩
    · refine List.chain'_cons'.mpr ⟨?_, ih h.tail⟩
      intro z hz
      rcases head?_insertDesc x ys with hh | hh
      · rw [hh] at hz
        simp only [Option.mem_def, Option.some.injEq] at hz
        subst hz
        omega
      · rw [hh] at hz
        exact (List.chain'_cons'.mp h).1 z hz

theorem mem_le_head (y : Nat × List Char) (ys : List (Nat × List Char))
    (h : List.Chain' (fun a b => b.1 ≤ a.1) (y :: ys)) :
    ∀ z ∈ y :: ys, z.1 ≤ y.1 := by
  induction ys generalizing y with
  | nil => intro z hz; simp at hz; subst hz; exact Nat.le_refl _
  | cons w ws ih =>
    intro z hz
    rcases List.mem_cons.mp hz with rfl | hz
    · exact Nat.le_refl _
    · exact Nat.le_trans (ih w h.tail z hz) (List.chain'_cons.mp h).1

theorem filter_insertDesc (n : Nat) (x : Nat × List Char)
    (l : List (Nat × List Char))
    (h : List.Chain' (fun a b => b.1 ≤ a.1) l) :
    (insertDesc x l).filter (fun p => p.1 == n)
      = l.filter (fun p => p.1 == n) ++ (if x.1 == n then [x] else []) := by
  induction l with
  | nil =>
    unfold insertDesc
    simp [List.filter_cons]
  | cons y ys ih =>
    unfold insertDesc
    split
    · rename_i hlt
      rw [List.filter_cons]
      by_cases hx : x.1 = n
      · have hys : (y :: ys).filter (fun p => p.1 == n) = [] := by
          rw [List.filter_eq_nil_iff]
          intro z hz
          have := mem_le_head y ys h z hz
          simp only [beq_iff_eq]
          omega
        simp [hx, hys, List.filter_cons]
      · have hx' : (x.1 == n) = false := by simp [hx]
        simp [hx', List.filter_cons]
    · rw [List.filter_cons, List.filter_cons, ih h.tail]
      by_cases hy : y.1 = n
      · simp [hy]
      · have hy' : (y.1 == n) = false := by simp [hy]
        simp [hy']

theorem sortDesc_go (l acc : List (Nat × List Char))
    (h : List.Chain' (fun a b => b.1 ≤ a.1) acc) :
    List.Chain' (fun a b => b.1 ≤ a.1)
        (l.foldl (fun a x => insertDesc x a) acc) ∧
      ∀ n, (l.foldl (fun a x => insertDesc x a) acc).filter (fun p => p.1 == n)
        = acc.filter (fun p => p.1 == n) ++ l.filter (fun p => p.1 == n) := by
  induction l generalizing acc with
  | nil => exact ⟨h, fun n => by simp⟩
  | cons x xs ih =>
    obtain ⟨h1, h2⟩ := ih (insertDesc x acc) (chain'_insertDesc x acc h)
    refine ⟨h1, fun n => ?_⟩
    rw [List.foldl_cons] at *
    rw [h2 n, filter_insertDesc n x acc h, List.filter_cons]
    by_cases hx : x.1 = n
    · simp [hx]
    · have hx' : (x.1 == n) = false := by simp [hx]
      simp [hx']

/-- C9: the sort of the scored sentences is by score descending, and is
stable: for every score value, the subsequence of sentences carrying that
score is exactly the one of the unsorted list, in document order.  Hence
`find_relevant_context` is deterministic on ties. -/
theorem sortDesc_sorted_and_stable (q d : List Char) (n : Nat) :
    List.Chain' (fun a b => b.1 ≤ a.1)
        (sortDesc (scoreSentences (pySplit (toLowerL q)) (splitSentences d))) ∧
      (sortDesc (scoreSentences (pySplit (toLowerL q)) (splitSentences d))).filter
          (fun p => p.1 == n)
        = (scoreSentences (pySplit (toLowerL q)) (splitSentences d)).filter
            (fun p => p.1 == n) := by
  obtain ⟨h1, h2⟩ :=
    sortDesc_go (scoreSentences (pySplit (toLowerL q)) (splitSentences d)) []
      List.chain'_nil
  exact ⟨h1, by simpa using h2 n⟩

/-! ## Length lemmas for C1 -/

theorem pyStrip_length_le (l : List Char) : (pyStrip l).length ≤ l.length := by
  unfold pyStrip
  rw [List.length_reverse]
  calc ((l.dropWhile isPySpace).reverse.dropWhile isPySpace).length
      ≤ (l.dropWhile isPySpace).reverse.length :=
        (List.dropWhile_suffix _).length_le
    _ = (l.dropWhile isPySpace).length := List.length_reverse _
    _ ≤ l.length := (List.dropWhile_suffix _).length_le

theorem suffix_getLast? {l m : List Char} (h : m <:+ l) (hm : m ≠ []) :
    m.getLast? = l.getLast? := by
  obtain ⟨t, rfl⟩ := h
  rw [List.getLast?_append]
  cases hml : m.getLast? with
  | none => simp_all
  | some c => simp

theorem dropWhile_reverse_len_of_last_space (m : List Char)
    (h : m.getLast? = some ' ') :
    (m.reverse.dropWhile isPySpace).length + 1 ≤ m.length := by
  have hrev : m.reverse.head? = some ' ' := by
    rw [List.head?_reverse, h]
  obtain ⟨t, ht⟩ : ∃ t, m.reverse = ' ' :: t := by
    cases hr : m.reverse with
    | nil => rw [hr] at hrev; simp at hrev
    | cons a t =>
      rw [hr] at hrev
      simp only [List.head?_cons, Option.some.injEq] at hrev
      exact ⟨t, by rw [hrev]⟩
  have hlen2 : t.length + 1 = m.length := by
    have := congrArg List.length ht
    simp only [List.length_reverse, List.length_cons] at this
    omega
  rw [ht, List.dropWhile_cons, if_pos (by decide)]
  have := (List.dropWhile_suffix (l := t) isPySpace).length_le
  omega

theorem pyStrip_length_lt_of_last_space (l : List Char)
    (h : l.getLast? = some ' ') : (pyStrip l).length + 1 ≤ l.length := by
  have hl : l ≠ [] := by intro e; rw [e] at h; simp at h
  unfold pyStrip
  by_cases hm : l.dropWhile isPySpace = []
  · rw [hm]
    simp only [List.reverse_nil, List.dropWhile_nil, List.length_reverse,
      List.length_nil]
    have : 1 ≤ l.length := List.length_pos.mpr hl
    omega
  · have hsuf : l.dropWhile isPySpace <:+ l := List.dropWhile_suffix _
    have hlast : (l.dropWhile isPySpace).getLast? = some ' ' := by
      rw [suffix_getLast? hsuf hm, h]
    have h1 := dropWhile_reverse_len_of_last_space (l.dropWhile isPySpace) hlast
    have h3 : (l.dropWhile isPySpace).length ≤ l.length := hsuf.length_le
    rw [List.length_reverse]
    omega

theorem buildContext_shape (budget : Nat) (l : List (Nat × List Char))
    (acc : List Char)
    (h : acc = [] ∨ (acc.length ≤ budget + 2 ∧ acc.getLast? = some ' ')) :
    buildContext budget acc l = [] ∨
      ((buildContext budget acc l).length ≤ budget + 2 ∧
        (buildContext budget acc l).getLast? = some ' ') := by
  induction l generalizing acc with
  | nil => exact h
  | cons p rest ih =>
    obtain ⟨sc, s⟩ := p
    unfold buildContext
    split
    · exact h
    · rename_i hfit
      split
      · apply ih
        right
        constructor
        · have : acc.length + s.length ≤ budget := by omega
          simp only [List.length_append, List.length_cons, List.length_nil]
          omega
        · rw [List.append_assoc, List.getLast?_append]
          simp
      · exact ih acc h

/-- C1 counterexample: with budget 12 and a 12-character relevant
sentence, the excerpt keeps the appended period after stripping the
trailing space, so its length is 13 > 12. -/
theorem c1_excerpt_can_exceed_budget :
    ¬ ((find_relevant_context ("aaaa".toList) docOverflow 12).length ≤ 12) := by
  decide

/-- C1 (amended): the excerpt returned by the selector never exceeds the
budget by more than one character (the appended `". "` separator is
counted against the budget only through the sentence lengths; the final
strip removes its trailing space but keeps its period). -/
theorem find_relevant_context_length_le (q d : List Char) (budget : Nat) :
    (find_relevant_context q d budget).length ≤ budget + 1 := by
  unfold find_relevant_context
  split
  · omega
  · rename_i hlen
    dsimp only
    have hfall : (pyStrip (d.take budget)).length ≤ budget + 1 := by
      have h1 := pyStrip_length_le (d.take budget)
      have h2 : (d.take budget).length ≤ budget := by
        rw [List.length_take]; omega
      omega
    rcases buildContext_shape budget
        (sortDesc (scoreSentences (pySplit (toLowerL q)) (splitSentences d)))
        [] (Or.inl rfl) with hc | ⟨hclen, hclast⟩
    · rw [hc]
      simpa using hfall
    · split
      · exact hfall
      · have := pyStrip_length_lt_of_last_space _ hclast
        omega

/-! ## Fallback-path lemmas for C4 -/

theorem countOccsGo_pos_occurs (pat : List Char) (fuel : Nat) (s : List Char)
    (h : countOccsGo pat fuel s ≠ 0) : pat <:+: s := by
  induction fuel generalizing s with
  | zero => simp [countOccsGo] at h
  | succ fuel ih =>
    cases s with
    | nil => simp [countOccsGo] at h
    | cons c rest =>
      unfold countOccsGo at h
      split at h
      · rename_i hp
        exact (List.isPrefixOf_iff_prefix.mp hp).isInfix
      · exact List.infix_cons (ih rest h)

theorem countOccs_eq_zero_of_not_occurs (s pat : List Char) (hne : pat ≠ [])
    (h : ¬ pat <:+: s) : countOccs s pat = 0 := by
  unfold countOccs
  rw [if_neg hne]
  by_contra hc
  exact h (countOccsGo_pos_occurs pat s.length s hc)

theorem splitRunsAux_piece_occurs (sep : Char → Bool) (l : List Char) :
    ∀ (acc : List Char) (flag : Bool),
      ∀ p ∈ splitRunsAux sep flag acc l, p <:+: acc.reverse ++ l := by
  induction l with
  | nil =>
    intro acc flag p hp
    unfold splitRunsAux at hp
    simp only [List.mem_singleton] at hp
    subst hp
    simpa using List.infix_refl acc.reverse
  | cons c rest ih =>
    intro acc flag p hp
    have hrest : ∀ q ∈ splitRunsAux sep true [] rest, q <:+: acc.reverse ++ c :: rest := by
      intro q hq
      have h1 : q <:+: rest := by simpa using ih [] true q hq
      have h2 : rest <:+: acc.reverse ++ c :: rest := by
        refine List.IsSuffix.isInfix ?_
        refine List.IsSuffix.trans ?_ (List.suffix_append acc.reverse (c :: rest))
        exact ⟨[c], rfl⟩
      exact h1.trans h2
    unfold splitRunsAux at hp
    split at hp
    · split at hp
      · exact hrest p hp
      · rcases List.mem_cons.mp hp with rfl | hp
        · exact (List.prefix_append acc.reverse (c :: rest)).isInfix
        · exact hrest p hp
    · have := ih (c :: acc) false p hp
      simpa [List.append_assoc] using this

theorem buildContext_of_all_zero (budget : Nat) (l : List (Nat × List Char))
    (h : ∀ p ∈ l, p.1 = 0) : buildContext budget [] l = [] := by
  induction l with
  | nil => rfl
  | cons p rest ih =>
    obtain ⟨sc, s⟩ := p
    unfold buildContext
    have hsc : sc = 0 := h (sc, s) (List.mem_cons_self _ _)
    split
    · rfl
    · rw [if_neg (by omega)]
      exact ih (fun p hp => h p (List.mem_cons_of_mem _ hp))

theorem mem_insertDesc (z x : Nat × List Char) (l : List (Nat × List Char))
    (h : z ∈ insertDesc x l) : z = x ∨ z ∈ l := by
  induction l with
  | nil => simpa [insertDesc] using h
  | cons y ys ih =>
    unfold insertDesc at h
    split at h
    · simpa using h
    · rcases List.mem_cons.mp h with rfl | h
      · right; exact List.mem_cons_self _ _
      · rcases ih h with rfl | h
        · left; rfl
        · right; exact List.mem_cons_of_mem _ h

theorem mem_sortDesc (z : Nat × List Char) (l : List (Nat × List Char))
    (h : z ∈ sortDesc l) : z ∈ l := by
  unfold sortDesc at h
  suffices H : ∀ (l acc : List (Nat × List Char)),
      z ∈ l.foldl (fun a x => insertDesc x a) acc → z ∈ acc ∨ z ∈ l by
    rcases H l [] h with h' | h'
    · simp at h'
    · exact h'
  intro l
  induction l with
  | nil => intro acc h; exact Or.inl h
  | cons x xs ih =>
    intro acc h
    rw [List.foldl_cons] at h
    rcases ih (insertDesc x acc) h with h' | h'
    · rcases mem_insertDesc z x acc h' with rfl | h''
      · exact Or.inr (List.mem_cons_self _ _)
      · exact Or.inl h''
    · exact Or.inr (List.mem_cons_of_mem _ h')

theorem scoreSentences_mem (words : List (List Char))
    (sentences : List (List Char)) (p : Nat × List Char)
    (h : p ∈ scoreSentences words sentences) :
    ∃ s ∈ sentences, p.1 = sentenceScore words s := by
  unfold scoreSentences at h
  rw [List.mem_filterMap] at h
  obtain ⟨s, hs, hsome⟩ := h
  split at hsome
  · exact absurd hsome (by simp)
  · refine ⟨s, hs, ?_⟩
    have := Option.some.inj hsome
    rw [← this]

/-- C4 counterexample: with question `"zzzz"` (no token occurs in the
document), budget 10 and a document whose 10th character is a space, the
result is the stripped prefix, not the raw 10-character prefix. -/
theorem c4_not_raw_prefix :
    ¬ (find_relevant_context ("zzzz".toList) docFallback 10 = docFallback.take 10) := by
  decide

/-- C4 (amended): when the document is longer than the budget and no
lowercase question token longer than two characters occurs anywhere in the
lowercased document, the selector returns the `strip()` of the first
`budget` characters of the document (the raw prefix with leading and
trailing whitespace removed). -/
theorem find_relevant_context_fallback (q d : List Char) (budget : Nat)
    (hlen : budget < d.length)
    (hno : ∀ w ∈ pySplit (toLowerL q), 2 < w.length → ¬ w <:+: toLowerL d) :
    find_relevant_context q d budget = pyStrip (d.take budget) := by
  unfold find_relevant_context
  rw [if_neg (by omega)]
  dsimp only
  have hzero : ∀ p ∈ sortDesc (scoreSentences (pySplit (toLowerL q)) (splitSentences d)),
      p.1 = 0 := by
    intro p hp
    obtain ⟨s, hs, hscore⟩ :=
      scoreSentences_mem _ _ p (mem_sortDesc p _ hp)
    rw [hscore, sentenceScore_eq_spec]
    unfold specSentenceScore
    apply List.sum_eq_zero
    intro x hx
    rw [List.mem_map] at hx
    obtain ⟨w, hw, rfl⟩ := hx
    rw [List.mem_filter] at hw
    obtain ⟨hwmem, hwlen⟩ := hw
    have hwlen' : 2 < w.length := by simpa using hwlen
    have hwne : w ≠ [] := by
      intro e; rw [e] at hwlen'; simp at hwlen'
    apply countOccs_eq_zero_of_not_occurs _ _ hwne
    intro hinf
    have hsd : s <:+: d := by
      simpa using splitRunsAux_piece_occurs isSentPunct d [] false s hs
    have : w <:+: toLowerL d := hinf.trans (hsd.map toLowerC)
    exact hno w hwmem hwlen' this
  rw [buildContext_of_all_zero _ _ hzero]
  have hps : pyStrip ([] : List Char) = [] := rfl
  rw [if_pos hps]

theorem find_relevant_context_fallback_witness :
    (10 < docFallback.length) ∧
      (∀ w ∈ pySplit (toLowerL ("zzzz".toList)), 2 < w.length →
        ¬ w <:+: toLowerL docFallback) ∧
      find_relevant_context ("zzzz".toList) docFallback 10
        = pyStrip (docFallback.take 10) :=
  ⟨by decide, by decide,
   find_relevant_context_fallback ("zzzz".toList) docFallback 10
     (by decide) (by decide)⟩

/-! ## Cleanliness invariants for C7

`clean_text` output is characterized by: every whitespace character is a
plain space, no two adjacent whitespace characters, no leading or trailing
whitespace, and no adjacency matching any of the three boundary patterns.
On such strings every stage of `clean_text` is the identity. -/

/-- Every whitespace character of the string is a plain space. -/
def WSSingle (l : List Char) : Prop :=
  ∀ c ∈ l, isPySpace c = true → c = ' '

/-- No two adjacent whitespace characters. -/
def NoAdjWS (l : List Char) : Prop :=
  List.Chain' (fun a b => ¬(isPySpace a = true ∧ isPySpace b = true)) l

/-- The first character, if any, is not whitespace. -/
def HeadOK (l : List Char) : Prop := ∀ c ∈ l.head?, isPySpace c = false

/-- The last character, if any, is not whitespace. -/
def LastOK (l : List Char) : Prop := ∀ c ∈ l.getLast?, isPySpace c = false

/-- No adjacent pair matches the two-place pattern `P`. -/
def NoPat (P : Char → Char → Bool) (l : List Char) : Prop :=
  List.Chain' (fun a b => P a b = false) l

/-- The characterization of `clean_text` output. -/
def CleanStr (l : List Char) : Prop :=
  WSSingle l ∧ NoAdjWS l ∧ HeadOK l ∧ LastOK l ∧
    NoPat lowerUpper l ∧ NoPat digitLetter l ∧ NoPat letterDigit l

/-! ### Character-class facts -/

theorem lowerUpper_sp (a : Char) :
    lowerUpper a ' ' = false ∧ lowerUpper ' ' a = false := by
  have h1 : isUpperC ' ' = false := by decide
  have h2 : isLowerC ' ' = false := by decide
  constructor <;> simp [lowerUpper, h1, h2]

theorem digitLetter_sp (a : Char) :
    digitLetter a ' ' = false ∧ digitLetter ' ' a = false := by
  have h1 : isAlphaC ' ' = false := by decide
  have h2 : isDigitC ' ' = false := by decide
  constructor <;> simp [digitLetter, h1, h2]

theorem letterDigit_sp (a : Char) :
    letterDigit a ' ' = false ∧ letterDigit ' ' a = false := by
  have h1 : isAlphaC ' ' = false := by decide
  have h2 : isDigitC ' ' = false := by decide
  constructor <;> simp [letterDigit, h1, h2]

theorem lowerUpper_chain (a b c : Char) (h : lowerUpper a b = true) :
    lowerUpper b c = false := by
  simp only [lowerUpper, isLowerC, isUpperC, Bool.and_eq_true,
    decide_eq_true_eq] at h ⊢
  simp only [Bool.and_eq_false_iff, decide_eq_false_iff_not]
  omega

theorem digitLetter_chain (a b c : Char) (h : digitLetter a b = true) :
    digitLetter b c = false := by
  simp only [digitLetter, isAlphaC, isDigitC, isUpperC, isLowerC,
    Bool.and_eq_true, Bool.or_eq_true, decide_eq_true_eq] at h ⊢
  simp only [Bool.and_eq_false_iff, Bool.or_eq_false_iff,
    decide_eq_false_iff_not]
  omega

theorem letterDigit_chain (a b c : Char) (h : letterDigit a b = true) :
    letterDigit b c = false := by
  simp only [letterDigit, isAlphaC, isDigitC, isUpperC, isLowerC,
    Bool.and_eq_true, Bool.or_eq_true, decide_eq_true_eq] at h ⊢
  simp only [Bool.and_eq_false_iff, Bool.or_eq_false_iff,
    decide_eq_false_iff_not]
  omega

/-! ### Stage lemmas: collapsing and boundary insertion -/

theorem collapseAux_id_of_not (P : Char → Bool) (b : Bool) (l : List Char)
    (h : ∀ c ∈ l, P c = false) : collapseAux P b l = l := by
  induction l generalizing b with
  | nil => rfl
  | cons c rest ih =>
    unfold collapseAux
    rw [if_neg (by simp [h c (List.mem_cons_self _ _)])]
    rw [ih false (fun x hx => h x (List.mem_cons_of_mem _ hx))]

theorem collapseAux_ws_id (l : List Char) (b : Bool) (h1 : WSSingle l)
    (h2 : NoAdjWS l) (hb : b = true → HeadOK l) :
    collapseAux isPySpace b l = l := by
  induction l generalizing b with
  | nil => rfl
  | cons c rest ih =>
    by_cases hc : isPySpace c = true
    · have hbf : b = false := by
        cases b with
        | false => rfl
        | true =>
          have := hb rfl c (by simp)
          rw [this] at hc
          cases hc
      have hcsp : c = ' ' := h1 c (List.mem_cons_self _ _) hc
      have hhead : HeadOK rest := by
        intro y hy
        have hpair := (List.chain'_cons'.mp h2).1 y hy
        by_contra hny
        exact hpair ⟨hc, by simpa using hny⟩
      subst hbf
      unfold collapseAux
      rw [if_pos hc, if_neg (show ¬(false = true) by simp)]
      rw [ih true (fun x hx hsx => h1 x (List.mem_cons_of_mem _ hx) hsx)
            (List.chain'_cons'.mp h2).2 (fun _ => hhead)]
      rw [hcsp]
    · unfold collapseAux
      rw [if_neg hc]
      rw [ih false (fun x hx hsx => h1 x (List.mem_cons_of_mem _ hx) hsx)
            (List.chain'_cons'.mp h2).2 (fun hh => by simp at hh)]

theorem insertBetween_head? (P : Char → Char → Bool) (l : List Char) :
    (insertBetween P l).head? = l.head? := by
  cases l with
  | nil => rfl
  | cons a tl =>
    cases tl with
    | nil => rfl
    | cons b rest =>
      unfold insertBetween
      split <;> rfl

theorem insertBetween_id (P : Char → Char → Bool) (l : List Char)
    (h : NoPat P l) : insertBetween P l = l := by
  induction l with
  | nil => rfl
  | cons a tl ih =>
    cases tl with
    | nil => rfl
    | cons b rest =>
      have hab : P a b = false := (List.chain'_cons.mp h).1
      unfold insertBetween
      rw [if_neg (by simp [hab]), ih h.tail]

theorem insertBetween_establishes (P : Char → Char → Bool)
    (hch : ∀ a b c, P a b = true → P b c = false)
    (hsp : ∀ a, P a ' ' = false ∧ P ' ' a = false) (l : List Char) :
    NoPat P (insertBetween P l) := by
  induction l using insertBetween.induct (P := P) with
  | case1 => exact List.chain'_nil
  | case2 a => exact List.chain'_singleton a
  | case3 a b rest hab ih =>
    unfold insertBetween
    rw [if_pos hab]
    refine List.chain'_cons.mpr ⟨(hsp a).1, ?_⟩
    refine List.chain'_cons.mpr ⟨(hsp b).2, ?_⟩
    refine List.chain'_cons'.mpr ⟨?_, ih⟩
    intro y _
    exact hch a b y hab
  | case4 a b rest hab ih =>
    unfold insertBetween
    rw [if_neg hab]
    refine List.chain'_cons'.mpr ⟨?_, ih⟩
    intro y hy
    rw [insertBetween_head? P (b :: rest)] at hy
    simp only [List.head?_cons, Option.mem_def, Option.some.injEq] at hy
    subst hy
    exact Bool.eq_false_iff.mpr hab

theorem insertBetween_preserves (P Q : Char → Char → Bool)
    (hsp : ∀ a, Q a ' ' = false ∧ Q ' ' a = false) (l : List Char)
    (h : NoPat Q l) : NoPat Q (insertBetween P l) := by
  revert h
  induction l using insertBetween.induct (P := P) with
  | case1 => intro h; exact List.chain'_nil
  | case2 a => intro h; exact List.chain'_singleton a
  | case3 a b rest hab ih =>
    intro h
    unfold insertBetween
    rw [if_pos hab]
    refine List.chain'_cons.mpr ⟨(hsp a).1, ?_⟩
    refine List.chain'_cons.mpr ⟨(hsp b).2, ?_⟩
    refine List.chain'_cons'.mpr ⟨?_, ih h.tail.tail⟩
    intro y hy
    rw [insertBetween_head? P rest] at hy
    exact (List.chain'_cons'.mp h.tail).1 y hy
  | case4 a b rest hab ih =>
    intro h
    unfold insertBetween
    rw [if_neg hab]
    refine List.chain'_cons'.mpr ⟨?_, ih h.tail⟩
    intro y hy
    rw [insertBetween_head? P (b :: rest)] at hy
    simp only [List.head?_cons, Option.mem_def, Option.some.injEq] at hy
    subst hy
    exact (List.chain'_cons.mp h).1

/-! ### Stage lemmas: split on whitespace and rejoin -/

theorem pySplitAux_pieces (l : List Char) :
    ∀ acc : List Char, (∀ c ∈ acc, isPySpace c = false) →
      ∀ p ∈ pySplitAux acc l, p ≠ [] ∧ ∀ c ∈ p, isPySpace c = false := by
  induction l with
  | nil =>
    intro acc hacc p hp
    unfold pySplitAux at hp
    split at hp
    · simp at hp
    · rename_i hne
      simp only [List.mem_singleton] at hp
      subst hp
      exact ⟨by simpa using hne, fun c hc => hacc c (List.mem_reverse.mp hc)⟩
  | cons c rest ih =>
    intro acc hacc p hp
    unfold pySplitAux at hp
    split at hp
    · split at hp
      · exact ih [] (by simp) p hp
      · rename_i hne
        rcases List.mem_cons.mp hp with rfl | hp
        · exact ⟨by simpa using hne, fun x hx => hacc x (List.mem_reverse.mp hx)⟩
        · exact ih [] (by simp) p hp
    · rename_i hc
      refine ih (c :: acc) ?_ p hp
      intro x hx
      rcases List.mem_cons.mp hx with rfl | hx
      · exact Bool.eq_false_iff.mpr hc
      · exact hacc x hx

theorem pySplitAux_ne_nil (l : List Char) :
    ∀ acc : List Char, acc ≠ [] → pySplitAux acc l ≠ [] := by
  induction l with
  | nil =>
    intro acc hacc
    unfold pySplitAux
    rw [if_neg hacc]
    simp
  | cons c rest ih =>
    intro acc hacc
    unfold pySplitAux
    by_cases hc : isPySpace c = true
    · rw [if_pos hc, if_neg hacc]
      simp
    · rw [if_neg hc]
      exact ih (c :: acc) (by simp)

theorem pyJoin_ne_nil (ps : List (List Char)) (hne : ∀ p ∈ ps, p ≠ [])
    (hps : ps ≠ []) : pyJoin ps ≠ [] := by
  cases ps with
  | nil => exact absurd rfl hps
  | cons p tl =>
    cases tl with
    | nil => exact hne p (by simp)
    | cons q ps' =>
      show p ++ ' ' :: pyJoin (q :: ps') ≠ []
      simp

theorem pyJoin_head? (q : List Char) (ps : List (List Char)) (hq : q ≠ []) :
    (pyJoin (q :: ps)).head? = q.head? := by
  cases ps with
  | nil => rfl
  | cons r ps' =>
    show (q ++ ' ' :: pyJoin (r :: ps')).head? = q.head?
    rw [List.head?_append]
    cases q with
    | nil => exact absurd rfl hq
    | cons a t => rfl

theorem noAdjWS_of_all_not (p : List Char) (h : ∀ c ∈ p, isPySpace c = false) :
    NoAdjWS p := by
  induction p with
  | nil => exact List.chain'_nil
  | cons a tl ih =>
    refine List.chain'_cons'.mpr ⟨?_, ih (fun c hc => h c (List.mem_cons_of_mem _ hc))⟩
    intro y _ hcon
    rw [h a (List.mem_cons_self _ _)] at hcon
    exact Bool.false_ne_true hcon.1

theorem pyJoin_wsSingle (ps : List (List Char))
    (h : ∀ p ∈ ps, ∀ c ∈ p, isPySpace c = false) : WSSingle (pyJoin ps) := by
  induction ps with
  | nil => intro c hc; simp [pyJoin] at hc
  | cons p tl ih =>
    cases tl with
    | nil =>
      intro c hc hcs
      rw [h p (by simp) c hc] at hcs
      cases hcs
    | cons q ps' =>
      intro c hc hcs
      rcases List.mem_append.mp hc with hc | hc
      · rw [h p (by simp) c hc] at hcs
        cases hcs
      · rcases List.mem_cons.mp hc with rfl | hc
        · rfl
        · exact ih (fun r hr => h r (List.mem_cons_of_mem _ hr)) c hc hcs

theorem pyJoin_noAdjWS (ps : List (List Char)) (hne : ∀ p ∈ ps, p ≠ [])
    (h : ∀ p ∈ ps, ∀ c ∈ p, isPySpace c = false) : NoAdjWS (pyJoin ps) := by
  induction ps with
  | nil => exact List.chain'_nil
  | cons p tl ih =>
    cases tl with
    | nil => exact noAdjWS_of_all_not p (h p (by simp))
    | cons q ps' =>
      show NoAdjWS (p ++ ' ' :: pyJoin (q :: ps'))
      refine List.chain'_append.mpr ⟨noAdjWS_of_all_not p (h p (by simp)), ?_, ?_⟩
      · refine List.chain'_cons'.mpr ⟨?_, ?_⟩
        · intro y hy hcon
          rw [pyJoin_head? q ps' (hne q (by simp))] at hy
          have hyq : y ∈ q := List.mem_of_mem_head? hy
          rw [h q (by simp) y hyq] at hcon
          exact Bool.false_ne_true hcon.2
        · exact ih (fun r hr => hne r (List.mem_cons_of_mem _ hr))
            (fun r hr => h r (List.mem_cons_of_mem _ hr))
      · intro x hx y hy hcon
        have hxp : x ∈ p := List.mem_of_mem_getLast? hx
        rw [h p (by simp) x hxp] at hcon
        exact Bool.false_ne_true hcon.1

theorem pyJoin_headOK (ps : List (List Char)) (hne : ∀ p ∈ ps, p ≠ [])
    (h : ∀ p ∈ ps, ∀ c ∈ p, isPySpace c = false) : HeadOK (pyJoin ps) := by
  cases ps with
  | nil => intro c hc; simp [pyJoin] at hc
  | cons p tl =>
    intro c hc
    rw [pyJoin_head? p tl (hne p (by simp))] at hc
    exact h p (by simp) c (List.mem_of_mem_head? hc)

theorem getLast?_cons_of_ne (a : Char) (l : List Char) (h : l ≠ []) :
    (a :: l).getLast? = l.getLast? := by
  cases l with
  | nil => exact absurd rfl h
  | cons b t => exact List.getLast?_cons_cons

theorem pyJoin_lastOK (ps : List (List Char)) (hne : ∀ p ∈ ps, p ≠ [])
    (h : ∀ p ∈ ps, ∀ c ∈ p, isPySpace c = false) : LastOK (pyJoin ps) := by
  induction ps with
  | nil => intro c hc; simp [pyJoin] at hc
  | cons p tl ih =>
    cases tl with
    | nil =>
      intro c hc
      exact h p (by simp) c (List.mem_of_mem_getLast? hc)
    | cons q ps' =>
      intro c hc
      have hj : pyJoin (q :: ps') ≠ [] :=
        pyJoin_ne_nil (q :: ps') (fun r hr => hne r (List.mem_cons_of_mem _ hr))
          (by simp)
      have heq : (p ++ ' ' :: pyJoin (q :: ps')).getLast?
          = (pyJoin (q :: ps')).getLast? := by
        rw [List.getLast?_append, getLast?_cons_of_ne ' ' _ hj]
        cases hg : (pyJoin (q :: ps')).getLast? with
        | none =>
          rw [List.getLast?_eq_none_iff] at hg
          exact absurd hg hj
        | some d => rfl
      rw [show pyJoin (p :: q :: ps') = p ++ ' ' :: pyJoin (q :: ps') from rfl,
        heq] at hc
      exact ih (fun r hr => hne r (List.mem_cons_of_mem _ hr))
        (fun r hr => h r (List.mem_cons_of_mem _ hr)) c hc

theorem splitJoin_preserves_noPat (Q : Char → Char → Bool)
    (hsp : ∀ a, Q a ' ' = false ∧ Q ' ' a = false) (l : List Char) :
    ∀ acc : List Char, NoPat Q (acc.reverse ++ l) →
      NoPat Q (pyJoin (pySplitAux acc l)) := by
  induction l with
  | nil =>
    intro acc h
    unfold pySplitAux
    split
    · exact List.chain'_nil
    · show NoPat Q acc.reverse
      simpa using h
  | cons c rest ih =>
    intro acc h
    have hrestchain : NoPat Q rest := by
      refine List.Chain'.suffix h ?_
      refine List.IsSuffix.trans ?_ (List.suffix_append acc.reverse (c :: rest))
      exact ⟨[c], rfl⟩
    unfold pySplitAux
    by_cases hc : isPySpace c = true
    · rw [if_pos hc]
      by_cases hacc : acc = []
      · rw [if_pos hacc]
        exact ih [] (by simpa using hrestchain)
      · rw [if_neg hacc]
        have hpre : NoPat Q acc.reverse :=
          List.Chain'.prefix h (List.prefix_append acc.reverse (c :: rest))
        have hrest : NoPat Q (pyJoin (pySplitAux [] rest)) :=
          ih [] (by simpa using hrestchain)
        cases hJ : pySplitAux [] rest with
        | nil => exact hpre
        | cons q ps =>
          show NoPat Q (acc.reverse ++ ' ' :: pyJoin (q :: ps))
          refine List.chain'_append.mpr ⟨hpre, ?_, ?_⟩
          · refine List.chain'_cons'.mpr ⟨fun y _ => (hsp y).2, ?_⟩
            rw [← hJ]
            exact hrest
          · intro x _ y hy
            simp only [List.head?_cons, Option.mem_def, Option.some.injEq] at hy
            subst hy
            exact (hsp x).1
    · rw [if_neg hc]
      refine ih (c :: acc) ?_
      simpa [List.append_assoc] using h

theorem wsSingle_tail (c : Char) (rest : List Char) (h : WSSingle (c :: rest)) :
    WSSingle rest :=
  fun x hx => h x (List.mem_cons_of_mem _ hx)

theorem lastOK_tail (c : Char) (rest : List Char) (h : LastOK (c :: rest)) :
    LastOK rest := by
  cases rest with
  | nil => intro y hy; simp at hy
  | cons d t =>
    intro y hy
    apply h
    rw [List.getLast?_cons_cons]
    exact hy

theorem splitJoin_id (l : List Char) :
    ∀ acc : List Char, WSSingle l → NoAdjWS l → LastOK l →
      (acc = [] → HeadOK l) → pyJoin (pySplitAux acc l) = acc.reverse ++ l := by
  induction l with
  | nil =>
    intro acc _ _ _ _
    unfold pySplitAux
    split
    · rename_i hacc
      subst hacc
      rfl
    · simp [pyJoin]
  | cons c rest ih =>
    intro acc h1 h2 h4 hOK
    unfold pySplitAux
    by_cases hc : isPySpace c = true
    · rw [if_pos hc]
      by_cases hacc : acc = []
      · exfalso
        have := hOK hacc c (by simp)
        rw [this] at hc
        cases hc
      · rw [if_neg hacc]
        have hcsp : c = ' ' := h1 c (List.mem_cons_self _ _) hc
        have hrest_ne : rest ≠ [] := by
          intro e
          subst e
          have := h4 c (by simp)
          rw [this] at hc
          cases hc
        have hheadrest : HeadOK rest := by
          intro y hy
          have hpair := (List.chain'_cons'.mp h2).1 y hy
          by_contra hny
          exact hpair ⟨hc, by simpa using hny⟩
        have hX : pySplitAux [] rest ≠ [] := by
          cases rest with
          | nil => exact absurd rfl hrest_ne
          | cons d t =>
            have hd : isPySpace d = false := hheadrest d (by simp)
            unfold pySplitAux
            rw [if_neg (by simp [hd])]
            exact pySplitAux_ne_nil t [d] (by simp)
        have hIH : pyJoin (pySplitAux [] rest) = rest := by
          have := ih [] (wsSingle_tail c rest h1) h2.tail (lastOK_tail c rest h4)
            (fun _ => hheadrest)
          simpa using this
        cases hJ : pySplitAux [] rest with
        | nil => exact absurd hJ hX
        | cons q ps =>
          show acc.reverse ++ ' ' :: pyJoin (q :: ps) = acc.reverse ++ c :: rest
          rw [hJ] at hIH
          rw [hIH, hcsp]
    · rw [if_neg hc]
      have := ih (c :: acc) (wsSingle_tail c rest h1) h2.tail
        (lastOK_tail c rest h4) (fun e => absurd e (by simp))
      rw [this]
      simp

theorem dropWhile_id_of_headOK (l : List Char) (h : HeadOK l) :
    l.dropWhile isPySpace = l := by
  cases l with
  | nil => rfl
  | cons c rest =>
    rw [List.dropWhile_cons, if_neg (by simp [h c (by simp)])]

theorem pyStrip_id (l : List Char) (hh : HeadOK l) (hl : LastOK l) :
    pyStrip l = l := by
  unfold pyStrip
  rw [dropWhile_id_of_headOK l hh]
  have hrev : HeadOK l.reverse := by
    intro c hc
    rw [List.head?_reverse] at hc
    exact hl c hc
  rw [dropWhile_id_of_headOK l.reverse hrev, List.reverse_reverse]

/-! ### Assembly of the idempotence proof -/

theorem insert3_noPats (t2 : List Char) :
    NoPat lowerUpper
        (insertBetween letterDigit (insertBetween digitLetter (insertBetween lowerUpper t2))) ∧
      NoPat digitLetter
        (insertBetween letterDigit (insertBetween digitLetter (insertBetween lowerUpper t2))) ∧
      NoPat letterDigit
        (insertBetween letterDigit (insertBetween digitLetter (insertBetween lowerUpper t2))) := by
  have h3 := insertBetween_establishes lowerUpper lowerUpper_chain lowerUpper_sp t2
  have h3' := insertBetween_preserves digitLetter lowerUpper lowerUpper_sp _ h3
  have h3'' := insertBetween_preserves letterDigit lowerUpper lowerUpper_sp _ h3'
  have h4 := insertBetween_establishes digitLetter digitLetter_chain digitLetter_sp
    (insertBetween lowerUpper t2)
  have h4' := insertBetween_preserves letterDigit digitLetter digitLetter_sp _ h4
  have h5 := insertBetween_establishes letterDigit letterDigit_chain letterDigit_sp
    (insertBetween digitLetter (insertBetween lowerUpper t2))
  exact ⟨h3'', h4', h5⟩

theorem joinSplit_clean (u : List Char)
    (h5 : NoPat lowerUpper u) (h6 : NoPat digitLetter u)
    (h7 : NoPat letterDigit u) :
    CleanStr (pyStrip (pyJoin (pySplit u))) := by
  have hp := pySplitAux_pieces u [] (fun c hc => absurd hc (List.not_mem_nil c))
  have hne : ∀ p ∈ pySplit u, p ≠ [] := fun p hp' => (hp p hp').1
  have hnws : ∀ p ∈ pySplit u, ∀ c ∈ p, isPySpace c = false :=
    fun p hp' => (hp p hp').2
  have hws := pyJoin_wsSingle (pySplit u) hnws
  have hadj := pyJoin_noAdjWS (pySplit u) hne hnws
  have hhead := pyJoin_headOK (pySplit u) hne hnws
  have hlast := pyJoin_lastOK (pySplit u) hne hnws
  have hQ3 : NoPat lowerUpper (pyJoin (pySplit u)) :=
    splitJoin_preserves_noPat lowerUpper lowerUpper_sp u [] (by simpa using h5)
  have hQ4 : NoPat digitLetter (pyJoin (pySplit u)) :=
    splitJoin_preserves_noPat digitLetter digitLetter_sp u [] (by simpa using h6)
  have hQ5 : NoPat letterDigit (pyJoin (pySplit u)) :=
    splitJoin_preserves_noPat letterDigit letterDigit_sp u [] (by simpa using h7)
  rw [pyStrip_id _ hhead hlast]
  exact ⟨hws, hadj, hhead, hlast, hQ3, hQ4, hQ5⟩

theorem clean_text_clean (s : List Char) : CleanStr (clean_text s) := by
  unfold clean_text
  split
  · refine ⟨?_, List.chain'_nil, ?_, ?_, List.chain'_nil, List.chain'_nil,
      List.chain'_nil⟩
    · intro c hc; simp at hc
    · intro c hc; simp at hc
    · intro c hc; simp at hc
  · dsimp only
    obtain ⟨h3, h4, h5⟩ :=
      insert3_noPats (collapseAux isPySpace false (collapseAux isNl false s))
    exact joinSplit_clean _ h3 h4 h5

theorem clean_text_id_of_clean (t : List Char) (h : CleanStr t) :
    clean_text t = t := by
  obtain ⟨h1, h2, h3, h4, h5, h6, h7⟩ := h
  unfold clean_text
  split
  · rename_i he
    exact he.symm
  · dsimp only
    have e1 : collapseAux isNl false t = t := by
      apply collapseAux_id_of_not
      intro c hc
      by_contra hn
      have hn' : isNl c = true := by simpa using hn
      have hcn : c.toNat = 10 := by simpa [isNl] using hn'
      have hws : isPySpace c = true := by simp [isPySpace, hcn]
      have hsp := h1 c hc hws
      rw [hsp] at hcn
      exact absurd hcn (by decide)
    rw [e1]
    rw [collapseAux_ws_id t false h1 h2 (fun e => by simp at e)]
    rw [insertBetween_id lowerUpper t h5, insertBetween_id digitLetter t h6,
      insertBetween_id letterDigit t h7]
    have e6 : pyJoin (pySplit t) = t := by
      unfold pySplit
      simpa using splitJoin_id t [] h1 h2 h4 (fun _ => h3)
    rw [e6, pyStrip_id t h3 h4]

/-- C7: the text normalizer is idempotent: cleaning a string twice gives
the same result as cleaning it once. -/
theorem clean_text_idempotent (s : List Char) :
    clean_text (clean_text s) = clean_text s :=
  clean_text_id_of_clean (clean_text s) (clean_text_clean s)
